import Mathlib

/-!
Verification development for the FGM_elasticmap repository.

The repository is a thin layer of Python utilities over pymatgen for
building endmember, dilute and SQS structures on crystallographic
sublattice models.  This file gives a shallow embedding of the
repository's own logic in Lean 4 and proves the specification claims
about it.  Conventions used throughout:

* Python lists become Lean `List`s; `zip` truncates to the shorter list
  exactly as in Python.
* Python `dict`s become association lists in insertion order: assignment
  to an existing key updates it in place, assignment to a fresh key
  appends at the end (`dictInsert`, `dictAdd`).
* Python string comparison is code-point lexicographic; we embed it as
  `charListLt` / `pyLe` on `String.data` (Lean's built-in `String.lt`
  does not reduce in the kernel, so we use this faithful replica).
* Python's `sorted` is a stable sort; we embed it as
  `List.insertionSort`, which is stable, with the relevant total
  preorder.  A stable sort under a total preorder is unique, so this is
  the same function.
* Python integers become `Nat`/`Int`; the float arithmetic on
  occupancies (ratios of small integers) is embedded as exact `ℚ`
  arithmetic.
* Fallible code (raising exceptions) returns `Except`/`Option`;
  in-place mutation of a caller's object is made explicit by returning
  the post-call state of that object.
* Work delegated to external libraries (pymatgen symmetry analysis,
  element-density tables, supercell geometry) is modelled by explicit
  function parameters; everything implemented in this repository is
  translated statement by statement.
-/

/-! ### Python string ordering (code-point lexicographic) -/

/-- Code-point lexicographic strict order on char lists, as Python
compares strings. -/
def charListLt : List Char → List Char → Bool
  | [], [] => false
  | [], _ :: _ => true
  | _ :: _, [] => false
  | a :: as, b :: bs =>
    if a.toNat < b.toNat then true
    else if b.toNat < a.toNat then false
    else charListLt as bs

/-- Python's `<=` on strings. -/
def pyLe (a b : String) : Bool := !(charListLt b.data a.data)

/-- The order Python's `sorted` uses on strings, as a `Prop`. -/
def strle (a b : String) : Prop := pyLe a b = true

instance : DecidableRel strle := fun a b => instDecidableEqBool (pyLe a b) true

theorem charListLt_irrefl : ∀ a, charListLt a a = false
  | [] => rfl
  | c :: cs => by simp [charListLt, charListLt_irrefl cs]

theorem charListLt_asymm : ∀ a b, charListLt a b = true → charListLt b a = false
  | [], [] => by simp [charListLt]
  | [], _ :: _ => by simp [charListLt]
  | _ :: _, [] => by simp [charListLt]
  | a :: as, b :: bs => by
    simp only [charListLt]
    rcases Nat.lt_trichotomy a.toNat b.toNat with h | h | h
    · simp [if_neg (Nat.lt_asymm h), if_pos h]
    · have h1 : ¬ a.toNat < b.toNat := by omega
      have h2 : ¬ b.toNat < a.toNat := by omega
      simp only [if_neg h1, if_neg h2]
      exact charListLt_asymm as bs
    · simp [if_neg (Nat.lt_asymm h), h]

theorem charListLt_eq_of_not : ∀ a b, charListLt a b = false → charListLt b a = false → a = b
  | [], [] => by simp
  | [], _ :: _ => by simp [charListLt]
  | _ :: _, [] => by simp [charListLt]
  | a :: as, b :: bs => by
    simp only [charListLt]
    rcases Nat.lt_trichotomy a.toNat b.toNat with h | h | h
    · simp [h]
    · have hab : a = b := Char.ext (UInt32.ext h)
      have h1 : ¬ a.toNat < b.toNat := by omega
      have h2 : ¬ b.toNat < a.toNat := by omega
      simp only [if_neg h1, if_neg h2]
      intro ha hb
      rw [hab, charListLt_eq_of_not as bs ha hb]
    · simp [if_neg (Nat.lt_asymm h), h]

theorem charListLt_trans : ∀ a b c, charListLt a b = true → charListLt b c = true →
    charListLt a c = true
  | [], [], _ :: _ => by simp [charListLt]
  | [], _ :: _, _ :: _ => by simp [charListLt]
  | a :: as, b :: bs, c :: cs => by
    simp only [charListLt]
    rcases Nat.lt_trichotomy a.toNat b.toNat with h | h | h <;>
      rcases Nat.lt_trichotomy b.toNat c.toNat with h' | h' | h'
    · simp [show a.toNat < c.toNat by omega]
    · simp [show a.toNat < c.toNat by omega]
    · simp [if_neg (Nat.lt_asymm h'), h']
    · simp [show a.toNat < c.toNat by omega]
    · have h1 : ¬ a.toNat < b.toNat := by omega
      have h2 : ¬ b.toNat < a.toNat := by omega
      have h3 : ¬ b.toNat < c.toNat := by omega
      have h4 : ¬ c.toNat < b.toNat := by omega
      have h5 : ¬ a.toNat < c.toNat := by omega
      have h6 : ¬ c.toNat < a.toNat := by omega
      simp only [if_neg h1, if_neg h2, if_neg h3, if_neg h4, if_neg h5, if_neg h6]
      exact charListLt_trans as bs cs
    · simp [if_neg (Nat.lt_asymm h'), h']
    · simp [if_neg (Nat.lt_asymm h), h]
    · simp [if_neg (Nat.lt_asymm h), h]
    · simp [if_neg (Nat.lt_asymm h), h]
  | [], [], [] => by simp [charListLt]
  | [], _ :: _, [] => by simp [charListLt]
  | _ :: _, [], _ => by simp [charListLt]
  | _ :: _, _ :: _, [] => by simp [charListLt]

instance : IsTotal String strle := by
  constructor
  intro a b
  by_cases h : charListLt b.data a.data = true
  · right
    have := charListLt_asymm _ _ h
    simp [strle, pyLe, this]
  · left
    simp only [Bool.not_eq_true] at h
    simp [strle, pyLe, h]

instance : IsTrans String strle := by
  constructor
  intro a b c hab hbc
  simp only [strle, pyLe, Bool.not_eq_true'] at hab hbc ⊢
  by_contra hcon
  simp only [Bool.not_eq_false] at hcon
  rcases hbcLt : charListLt b.data c.data with _ | _
  · have hbc' : b.data = c.data := charListLt_eq_of_not _ _ hbcLt hbc
    rw [← hbc'] at hcon
    exact absurd hcon (by simp [hab])
  · have : charListLt b.data a.data = true := charListLt_trans _ _ _ hbcLt hcon
    exact absurd this (by simp [hab])

instance : IsRefl String strle :=
  ⟨fun a => by simp [strle, pyLe, charListLt_irrefl]⟩

/-- Python's `sorted` on a list of strings. -/
def pySortStrings (l : List String) : List String := List.insertionSort strle l

/-! ### Python dict operations (insertion-ordered association lists) -/

/-- Python dict assignment `d[k] = v`: update in place if the key exists,
append otherwise. -/
def dictInsert {β : Type} : List (String × β) → String → β → List (String × β)
  | [], k, v => [(k, v)]
  | (k', v') :: rest, k, v =>
    if k' = k then (k, v) :: rest else (k', v') :: dictInsert rest k v

/-- Python dict accumulation `d[k] = d.get(k, 0) + v` on numbers. -/
def dictAdd : List (String × ℚ) → String → ℚ → List (String × ℚ)
  | [], k, v => [(k, v)]
  | (k', v') :: rest, k, v =>
    if k' = k then (k', v' + v) :: rest else (k', v') :: dictAdd rest k v

/-! ## `database_tools.py` -/

/-- Inner helper of `get_structures_from_database`: one direction of the
divisibility check (`all(x % y == 0)` and all quotients equal). -/
def checkDirection (a b : List ℕ) : Bool :=
  ((a.zip b).all fun p => p.1 % p.2 == 0) &&
  (((a.zip b).map fun p => p.1 / p.2).dedup.length == 1)

/-- The `lists_are_multiple` helper from `database_tools.py`: length check, then the
divisibility test in both directions (`for a, b in [(l1, l2), (l2, l1)]`). -/
def lists_are_multiple (l1 l2 : List ℕ) : Bool :=
  if l1.length ≠ l2.length then false
  else checkDirection l1 l2 || checkDirection l2 l1

/-- A document of the TinyDB SQS database, restricted to the fields the
query touches. -/
structure DBEntry where
  prototype : String
  sublattice_site_ratios : List (List ℕ)
deriving DecidableEq

/-- The query `get_structures_from_database`: a TinyDB `search` with an exact-match
condition on `prototype` conjoined with the `lists_are_multiple` test on
the per-sublattice site-ratio sums.  TinyDB's `search` returns the
documents satisfying the query, in database order: a filter.  The
`subl_model` argument is accepted but never used by the query, as in the
source. -/
def get_structures_from_database (db : List DBEntry) (prototype : String)
    (subl_model : List (List String)) (subl_site_ratios : List ℕ) : List DBEntry :=
  db.filter fun entry =>
    (entry.prototype == prototype) &&
    lists_are_multiple (entry.sublattice_site_ratios.map List.sum) subl_site_ratios

/-! ### Lemmas for `lists_are_multiple` -/

theorem eq_singleton_of_nodup_all_eq {α : Type} {l : List α} {k : α}
    (hn : l.Nodup) (hk : k ∈ l) (h : ∀ x ∈ l, x = k) : l = [k] := by
  cases l with
  | nil => cases hk
  | cons a t =>
    have ha : a = k := h a (by simp)
    cases t with
    | nil => simp [ha]
    | cons b t2 =>
      have hb : b = k := h b (by simp)
      rw [ha, hb] at hn
      simp [List.nodup_cons] at hn

theorem dedup_length_one_of_all_eq {α : Type} [DecidableEq α] {l : List α} {k : α}
    (hne : l ≠ []) (h : ∀ x ∈ l, x = k) : l.dedup.length = 1 := by
  have hk : k ∈ l := by
    cases l with
    | nil => exact absurd rfl hne
    | cons a t => rw [← h a (by simp)]; simp
  have : l.dedup = [k] :=
    eq_singleton_of_nodup_all_eq (List.nodup_dedup l) (List.mem_dedup.mpr hk)
      (fun x hx => h x (List.mem_dedup.mp hx))
  simp [this]

theorem eq_map_mul_of_div {a : List ℕ} (k : ℕ) : ∀ {b : List ℕ},
    a.length = b.length → (∀ x ∈ b, 0 < x) →
    (∀ p ∈ a.zip b, p.1 % p.2 = 0) → (∀ p ∈ a.zip b, p.1 / p.2 = k) →
    a = b.map (· * k) := by
  induction a with
  | nil =>
    intro b hlen _ _ _
    cases b with
    | nil => rfl
    | cons => simp at hlen
  | cons x xs ih =>
    intro b hlen hb hdvd hk
    cases b with
    | nil => simp at hlen
    | cons y ys =>
      have hy : 0 < y := hb y (by simp)
      have h1 : x % y = 0 := hdvd (x, y) (by simp)
      have h2 : x / y = k := hk (x, y) (by simp)
      have hx : x = y * k := by
        rw [← Nat.div_mul_cancel (Nat.dvd_of_mod_eq_zero h1), h2]
        exact Nat.mul_comm k y
      have htail : xs = ys.map (· * k) :=
        ih (by simpa using hlen) (fun z hz => hb z (by simp [hz]))
          (fun p hp => hdvd p (by simp [hp])) (fun p hp => hk p (by simp [hp]))
      simp [hx, htail]

theorem zip_map_self {α β : Type} (f : α → β) :
    ∀ b : List α, (b.map f).zip b = b.map (fun x => (f x, x))
  | [] => rfl
  | x :: xs => by simp [zip_map_self f xs]

theorem checkDirection_iff {a b : List ℕ} (hlen : a.length = b.length)
    (hb : ∀ x ∈ b, 0 < x) :
    checkDirection a b = true ↔ a ≠ [] ∧ ∃ k, a = b.map (· * k) := by
  constructor
  · intro h
    simp only [checkDirection, Bool.and_eq_true, List.all_eq_true, beq_iff_eq] at h
    obtain ⟨hall, hded⟩ := h
    have hane : a ≠ [] := by
      rintro rfl
      simp [List.zip] at hded
    obtain ⟨k, hdk⟩ := List.length_eq_one.mp hded
    refine ⟨hane, k, ?_⟩
    refine eq_map_mul_of_div k hlen hb hall ?_
    intro p hp
    have : p.1 / p.2 ∈ ((a.zip b).map fun p => p.1 / p.2).dedup :=
      List.mem_dedup.mpr (List.mem_map_of_mem _ hp)
    rw [hdk] at this
    simpa using this
  · rintro ⟨hane, k, rfl⟩
    have hbne : b ≠ [] := by
      rintro rfl
      simp at hane
    simp only [checkDirection, Bool.and_eq_true, List.all_eq_true, beq_iff_eq]
    rw [zip_map_self]
    constructor
    · intro p hp
      obtain ⟨x, _, rfl⟩ := List.mem_map.mp hp
      exact Nat.mul_mod_right x k
    · rw [List.map_map]
      refine dedup_length_one_of_all_eq (k := k) (by simpa using hbne) ?_
      intro z hz
      obtain ⟨x, hx, rfl⟩ := List.mem_map.mp hz
      exact Nat.mul_div_cancel_left k (hb x hx)

theorem lists_are_multiple_iff {l1 l2 : List ℕ}
    (h1 : ∀ x ∈ l1, 0 < x) (h2 : ∀ x ∈ l2, 0 < x) :
    lists_are_multiple l1 l2 = true ↔
      l1.length = l2.length ∧ l1 ≠ [] ∧
        ∃ k, l1 = l2.map (· * k) ∨ l2 = l1.map (· * k) := by
  unfold lists_are_multiple
  by_cases hlen : l1.length = l2.length
  · rw [if_neg (by simp [hlen])]
    rw [Bool.or_eq_true, checkDirection_iff hlen h2, checkDirection_iff hlen.symm h1]
    constructor
    · rintro (⟨hne, k, hk⟩ | ⟨hne2, k, hk⟩)
      · exact ⟨hlen, hne, k, Or.inl hk⟩
      · refine ⟨hlen, ?_, k, Or.inr hk⟩
        rintro rfl
        exact hne2 (List.eq_nil_of_length_eq_zero hlen.symm)
    · rintro ⟨_, hne, k, hk | hk⟩
      · exact Or.inl ⟨hne, k, hk⟩
      · refine Or.inr ⟨?_, k, hk⟩
        rintro rfl
        exact hne (List.eq_nil_of_length_eq_zero hlen)
  · rw [if_pos (by simpa using hlen)]
    simp [hlen]

/-- C2 (counterexample): the claim's notion of "multiple" holds vacuously
for two empty vectors (equal length, and `[] = [] * 1` element-wise), so
the claim predicts that an entry with matching prototype and empty
site-ratio sums is returned when queried with empty `subl_site_ratios`;
the code's `lists_are_multiple` returns `False` for two empty lists
(`len(set([])) == 1` fails), so the entry is not returned. -/
theorem get_structures_from_database_empty_counterexample :
    get_structures_from_database [DBEntry.mk "GAMMA_L12" []] "GAMMA_L12" [] [] = [] ∧
    (DBEntry.mk "GAMMA_L12" []).prototype = "GAMMA_L12" ∧
    ((DBEntry.mk "GAMMA_L12" []).sublattice_site_ratios.map List.sum).length =
      ([] : List ℕ).length ∧
    (DBEntry.mk "GAMMA_L12" []).sublattice_site_ratios.map List.sum =
      ([] : List ℕ).map (· * 1) := by
  exact ⟨by decide, rfl, rfl, rfl⟩

/-- C2 (amended): for positive site-ratio vectors,
`get_structures_from_database` returns exactly those database entries
whose `prototype` equals the given prototype and whose per-sublattice
site-ratio sums are a *nonempty* vector of the same length as
`subl_site_ratios` with one vector an element-wise integer multiple of
the other (checked in both directions); vectors of different lengths, or
empty vectors, never match. -/
theorem get_structures_from_database_spec
    (db : List DBEntry) (prototype : String) (subl_model : List (List String))
    (subl_site_ratios : List ℕ)
    (hdb : ∀ e ∈ db, ∀ x ∈ e.sublattice_site_ratios.map List.sum, 0 < x)
    (hq : ∀ x ∈ subl_site_ratios, 0 < x) :
    ∀ e, e ∈ get_structures_from_database db prototype subl_model subl_site_ratios ↔
      e ∈ db ∧ e.prototype = prototype ∧
      (e.sublattice_site_ratios.map List.sum).length = subl_site_ratios.length ∧
      e.sublattice_site_ratios.map List.sum ≠ [] ∧
      ∃ k : ℕ, e.sublattice_site_ratios.map List.sum = subl_site_ratios.map (· * k) ∨
        subl_site_ratios = (e.sublattice_site_ratios.map List.sum).map (· * k) := by
  intro e
  unfold get_structures_from_database
  rw [List.mem_filter]
  constructor
  · rintro ⟨hmem, hp⟩
    simp only [Bool.and_eq_true, beq_iff_eq] at hp
    obtain ⟨hproto, hmult⟩ := hp
    have h := (lists_are_multiple_iff (hdb e hmem) hq).mp hmult
    exact ⟨hmem, hproto, h.1, h.2.1, h.2.2⟩
  · rintro ⟨hmem, hproto, hlen, hne, k, hk⟩
    refine ⟨hmem, ?_⟩
    simp only [Bool.and_eq_true, beq_iff_eq]
    exact ⟨hproto, (lists_are_multiple_iff (hdb e hmem) hq).mpr ⟨hlen, hne, k, hk⟩⟩

/-- Witness for `get_structures_from_database_spec`: a one-entry database
with site-ratio sums `[1, 2]` matches the query `[2, 4]`. -/
theorem get_structures_from_database_spec_witness :
    (∀ e ∈ [DBEntry.mk "GAMMA_L12" [[1], [2]]],
        ∀ x ∈ e.sublattice_site_ratios.map List.sum, 0 < x) ∧
    (∀ x ∈ [2, 4], 0 < x) ∧
    (DBEntry.mk "GAMMA_L12" [[1], [2]] ∈
        get_structures_from_database [DBEntry.mk "GAMMA_L12" [[1], [2]]]
          "GAMMA_L12" [] [2, 4] ↔
      DBEntry.mk "GAMMA_L12" [[1], [2]] ∈ [DBEntry.mk "GAMMA_L12" [[1], [2]]] ∧
      (DBEntry.mk "GAMMA_L12" [[1], [2]]).prototype = "GAMMA_L12" ∧
      ((DBEntry.mk "GAMMA_L12" [[1], [2]]).sublattice_site_ratios.map List.sum).length =
        ([2, 4] : List ℕ).length ∧
      (DBEntry.mk "GAMMA_L12" [[1], [2]]).sublattice_site_ratios.map List.sum ≠ [] ∧
      ∃ k : ℕ,
        (DBEntry.mk "GAMMA_L12" [[1], [2]]).sublattice_site_ratios.map List.sum =
          ([2, 4] : List ℕ).map (· * k) ∨
        ([2, 4] : List ℕ) =
          ((DBEntry.mk "GAMMA_L12" [[1], [2]]).sublattice_site_ratios.map
            List.sum).map (· * k)) :=
  ⟨by decide, by decide,
    get_structures_from_database_spec [DBEntry.mk "GAMMA_L12" [[1], [2]]]
      "GAMMA_L12" [] [2, 4] (by decide) (by decide) (DBEntry.mk "GAMMA_L12" [[1], [2]])⟩

/-! ## `structure_tools.py` -/

/-- The order `sorted(zip(y, x), key=lambda pair: pair[0])` sorts by: the
first component, under Python string comparison. -/
def fstStrle (p q : String × ℚ) : Prop := strle p.1 q.1

instance : DecidableRel fstStrle :=
  fun p q => inferInstanceAs (Decidable (strle p.1 q.1))

instance : IsTotal (String × ℚ) fstStrle :=
  ⟨fun p q => IsTotal.total (r := strle) p.1 q.1⟩

instance : IsTrans (String × ℚ) fstStrle :=
  ⟨fun _ _ _ h1 h2 => IsTrans.trans (r := strle) _ _ _ h1 h2⟩

/-- The helper `sort_x_by_y` from `structure_tools.py`: sort the pairs `zip(y, x)`
stably by the `y` component and keep the `x` components. -/
def sort_x_by_y (x : List ℚ) (y : List String) : List ℚ :=
  (List.insertionSort fstStrle (y.zip x)).map Prod.snd

/-- The function `canonicalize_config` from `structure_tools.py`: sort each
sublattice's configuration and permute its occupancies along. -/
def canonicalize_config (configuration : List (List String))
    (occupancies : List (List ℚ)) : List (List String) × List (List ℚ) :=
  (configuration.map pySortStrings,
   (occupancies.zip configuration).map fun p => sort_x_by_y p.1 p.2)

theorem fstStrle_iff (p q : String × ℚ) : fstStrle p q ↔ strle p.1 q.1 := Iff.rfl

theorem map_fst_orderedInsert (p : String × ℚ) :
    ∀ l : List (String × ℚ),
      (List.orderedInsert fstStrle p l).map Prod.fst =
        List.orderedInsert strle p.1 (l.map Prod.fst)
  | [] => rfl
  | q :: l => by
    by_cases h : strle p.1 q.1
    · simp [List.orderedInsert, h, fstStrle_iff]
    · simp [List.orderedInsert, h, fstStrle_iff, map_fst_orderedInsert p l]

theorem map_fst_insertionSort :
    ∀ l : List (String × ℚ),
      (List.insertionSort fstStrle l).map Prod.fst =
        List.insertionSort strle (l.map Prod.fst)
  | [] => rfl
  | p :: l => by
    simp only [List.insertionSort, List.map_cons]
    rw [map_fst_orderedInsert, map_fst_insertionSort l]

theorem zip_map_fst_snd {α β : Type} (l : List (α × β)) :
    (l.map Prod.fst).zip (l.map Prod.snd) = l := by
  have h := List.zip_unzip l
  rwa [List.unzip_eq_map] at h

/-- Zipping a sorted configuration with the along-sorted occupancies is
exactly the stable sort of the original (species, occupancy) pairs. -/
theorem canonical_pair (cs : List String) (os : List ℚ) (h : cs.length = os.length) :
    (pySortStrings cs).zip (sort_x_by_y os cs) =
      List.insertionSort fstStrle (cs.zip os) := by
  have h1 : (cs.zip os).map Prod.fst = cs := List.map_fst_zip cs os (le_of_eq h)
  have h2 : (List.insertionSort fstStrle (cs.zip os)).map Prod.fst = pySortStrings cs := by
    rw [map_fst_insertionSort, h1]
    rfl
  calc (pySortStrings cs).zip (sort_x_by_y os cs)
      = ((List.insertionSort fstStrle (cs.zip os)).map Prod.fst).zip
          ((List.insertionSort fstStrle (cs.zip os)).map Prod.snd) := by
        rw [h2]
        rfl
    _ = List.insertionSort fstStrle (cs.zip os) := zip_map_fst_snd _

theorem pySortStrings_sorted (l : List String) : List.Sorted strle (pySortStrings l) :=
  List.sorted_insertionSort strle l

theorem pySortStrings_idem (l : List String) :
    pySortStrings (pySortStrings l) = pySortStrings l :=
  List.Sorted.insertionSort_eq (pySortStrings_sorted l)

theorem sort_x_by_y_idem (cs : List String) (os : List ℚ) (h : cs.length = os.length) :
    sort_x_by_y (sort_x_by_y os cs) (pySortStrings cs) = sort_x_by_y os cs := by
  have hsorted : List.Sorted fstStrle (List.insertionSort fstStrle (cs.zip os)) :=
    List.sorted_insertionSort fstStrle (cs.zip os)
  calc sort_x_by_y (sort_x_by_y os cs) (pySortStrings cs)
      = (List.insertionSort fstStrle
          ((pySortStrings cs).zip (sort_x_by_y os cs))).map Prod.snd := rfl
    _ = (List.insertionSort fstStrle
          (List.insertionSort fstStrle (cs.zip os))).map Prod.snd := by
        rw [canonical_pair cs os h]
    _ = (List.insertionSort fstStrle (cs.zip os)).map Prod.snd := by
        rw [List.Sorted.insertionSort_eq hsorted]
    _ = sort_x_by_y os cs := rfl

theorem canonicalize_config_idem :
    ∀ (cfg : List (List String)) (occ : List (List ℚ)),
      cfg.length = occ.length → (∀ p ∈ cfg.zip occ, p.1.length = p.2.length) →
      canonicalize_config (canonicalize_config cfg occ).1
          (canonicalize_config cfg occ).2 =
        canonicalize_config cfg occ
  | [], [], _, _ => rfl
  | [], _ :: _, h, _ => by simp at h
  | _ :: _, [], h, _ => by simp at h
  | c0 :: cfg, o0 :: occ, hlen, hshape => by
    have hh : c0.length = o0.length := hshape (c0, o0) (by simp)
    have ih := canonicalize_config_idem cfg occ (by simpa using hlen)
      (fun p hp => hshape p (by simp [hp]))
    simp only [canonicalize_config, List.zip_cons_cons, List.map_cons] at ih ⊢
    rw [Prod.mk.injEq] at ih ⊢
    refine ⟨?_, ?_⟩
    · rw [pySortStrings_idem, ih.1]
    · rw [sort_x_by_y_idem c0 o0 hh, ih.2]

theorem canonicalize_config_perm :
    ∀ (cfg : List (List String)) (occ : List (List ℚ)),
      cfg.length = occ.length → (∀ p ∈ cfg.zip occ, p.1.length = p.2.length) →
      List.Forall₂ (fun p q : List String × List ℚ => (p.1.zip p.2).Perm (q.1.zip q.2))
        ((canonicalize_config cfg occ).1.zip (canonicalize_config cfg occ).2)
        (cfg.zip occ)
  | [], [], _, _ => List.Forall₂.nil
  | [], _ :: _, h, _ => by simp at h
  | _ :: _, [], h, _ => by simp at h
  | c0 :: cfg, o0 :: occ, hlen, hshape => by
    have hh : c0.length = o0.length := hshape (c0, o0) (by simp)
    simp only [canonicalize_config, List.zip_cons_cons, List.map_cons]
    refine List.Forall₂.cons ?_ ?_
    · show ((pySortStrings c0).zip (sort_x_by_y o0 c0)).Perm (c0.zip o0)
      rw [canonical_pair c0 o0 hh]
      exact List.perm_insertionSort _ _
    · exact canonicalize_config_perm cfg occ (by simpa using hlen)
        (fun p hp => hshape p (by simp [hp]))

/-- C6: for every configuration and occupancies of identical shape,
`canonicalize_config` returns each sublattice's configuration sorted (in
Python's string order), permutes each sublattice's occupancies by the
permutation sorting the configuration — so per sublattice the multiset
of (species, occupancy) pairs is preserved — and is idempotent. -/
theorem canonicalize_config_canonical
    (cfg : List (List String)) (occ : List (List ℚ))
    (hlen : cfg.length = occ.length)
    (hshape : ∀ p ∈ cfg.zip occ, p.1.length = p.2.length) :
    (∀ c ∈ (canonicalize_config cfg occ).1, List.Sorted strle c) ∧
    List.Forall₂ (fun p q : List String × List ℚ => (p.1.zip p.2).Perm (q.1.zip q.2))
      ((canonicalize_config cfg occ).1.zip (canonicalize_config cfg occ).2)
      (cfg.zip occ) ∧
    canonicalize_config (canonicalize_config cfg occ).1
        (canonicalize_config cfg occ).2 =
      canonicalize_config cfg occ := by
  refine ⟨?_, canonicalize_config_perm cfg occ hlen hshape,
    canonicalize_config_idem cfg occ hlen hshape⟩
  intro c hc
  obtain ⟨c0, _, rfl⟩ := List.mem_map.mp hc
  exact pySortStrings_sorted c0

/-- Witness for `canonicalize_config_canonical` at the configuration
`[['b', 'a']]` with occupancies `[[2, 1]]`. -/
theorem canonicalize_config_canonical_witness :
    ([["b", "a"]] : List (List String)).length = ([[2, 1]] : List (List ℚ)).length ∧
    (∀ p ∈ ([["b", "a"]] : List (List String)).zip ([[2, 1]] : List (List ℚ)),
      p.1.length = p.2.length) ∧
    ((∀ c ∈ (canonicalize_config [["b", "a"]] [[2, 1]]).1, List.Sorted strle c) ∧
     List.Forall₂ (fun p q : List String × List ℚ => (p.1.zip p.2).Perm (q.1.zip q.2))
       ((canonicalize_config [["b", "a"]] [[2, 1]]).1.zip
         (canonicalize_config [["b", "a"]] [[2, 1]]).2)
       (([["b", "a"]] : List (List String)).zip ([[2, 1]] : List (List ℚ))) ∧
     canonicalize_config (canonicalize_config [["b", "a"]] [[2, 1]]).1
         (canonicalize_config [["b", "a"]] [[2, 1]]).2 =
       canonicalize_config [["b", "a"]] [[2, 1]]) :=
  ⟨rfl, by decide,
    canonicalize_config_canonical [["b", "a"]] [[2, 1]] rfl (by decide)⟩

/-! ## `prl_structure.py` -/

/-- A site of a pymatgen structure, restricted to what this repository
reads and writes: the single species' element name
(`site['species'][0]['element']`) and the `sublattice_sites` site
property. -/
structure PSite where
  element : String
  sublattice : String
deriving DecidableEq

instance : Inhabited PSite := ⟨⟨"", ""⟩⟩

/-- A pymatgen `Structure`, restricted to what this repository reads and
writes: the sites and the lattice (represented by its volume, the only
lattice datum the code manipulates). -/
structure PStructure where
  sites : List PSite
  lattice : ℚ
deriving DecidableEq

/-- A `PRLStructure`: a pymatgen structure carrying four extra sublattice
attributes, each defaulting to `None`. -/
structure PRLStructure where
  sites : List PSite
  lattice : ℚ
  sublattice_configuration : Option (List (List String))
  sublattice_occupancies : Option (List (List ℚ))
  sublattice_site_ratios : Option (List ℚ)
  wyckoff_sites : Option (List String)
deriving DecidableEq

/-- An arbitrary Python object as seen by `PRLStructure.__eq__`: either a
`PRLStructure` or something that is not one (abstracted by an opaque
tag), which `isinstance` rejects. -/
inductive PyObject where
  | prl (s : PRLStructure)
  | nonPrl (tag : String)

/-- The method `PRLStructure.__eq__`: `False` for non-`PRLStructure` arguments,
otherwise the conjunction of the four sublattice-attribute equalities. -/
def PRLStructure.eq (self : PRLStructure) (other : PyObject) : Bool :=
  match other with
  | .nonPrl _ => false
  | .prl o =>
    decide (self.sublattice_configuration = o.sublattice_configuration) &&
    decide (self.sublattice_site_ratios = o.sublattice_site_ratios) &&
    decide (self.sublattice_occupancies = o.sublattice_occupancies) &&
    decide (self.wyckoff_sites = o.wyckoff_sites)

/-- C10: `PRLStructure.__eq__` depends only on the four sublattice
attributes: two `PRLStructure`s compare equal exactly when all four
agree, whatever their sites and lattices are, and comparison against
anything that is not a `PRLStructure` returns `False`. -/
theorem PRLStructure_eq_spec :
    (∀ a b : PRLStructure, PRLStructure.eq a (.prl b) = true ↔
      a.sublattice_configuration = b.sublattice_configuration ∧
      a.sublattice_occupancies = b.sublattice_occupancies ∧
      a.sublattice_site_ratios = b.sublattice_site_ratios ∧
      a.wyckoff_sites = b.wyckoff_sites) ∧
    (∀ (a : PRLStructure) (tag : String), PRLStructure.eq a (.nonPrl tag) = false) := by
  constructor
  · intro a b
    simp only [PRLStructure.eq, Bool.and_eq_true, decide_eq_true_eq]
    tauto
  · intro a tag
    rfl

/-! ## Structure substitution (`structure_tools.py`, continued) -/

/-- pymatgen's `Structure.replace_species`: rewrite each site's species
through the mapping, leaving species without an entry unchanged (this is
the whole effect on the data this repository reads back). -/
def replace_species (m : List (String × String)) (s : PStructure) : PStructure :=
  { s with sites := s.sites.map fun site =>
      { site with element := (List.lookup site.element m).getD site.element } }

/-- The helper `gen_replacement_dict(old_config, new_config)`: for each sublattice
of `zip(new_config, old_config)` and each `zip(new_subl, old_subl)`
pair, assign `replacement_dict[old_atom] = new_atom`. -/
def gen_replacement_dict (old_config new_config : List (List String)) :
    List (String × String) :=
  (new_config.zip old_config).foldl
    (fun d p => (p.1.zip p.2).foldl (fun d2 q => dictInsert d2 q.2 q.1) d) []

/-- The function `substitute_configuration`: deep-copy the template structure, replace
species via `gen_replacement_dict`, and rescale the lattice with
`scale_struct`.  `scale_struct` only combines pymatgen data (the
element-density table, the structure's composition, mass and volume), so
the rescaling is the external parameter `scale`; it does not touch the
sites. -/
def substitute_configuration (scale : PStructure → PStructure)
    (template_structure : PStructure)
    (template_config config : List (List String)) : PStructure :=
  scale (replace_species (gen_replacement_dict template_config config)
    template_structure)

/-! ## `endmember_tools.py` -/

/-- Python's `sorted(set(xs))` for strings (the set iteration order is washed
out by the sort). -/
def sortedSetStr (xs : List String) : List String := pySortStrings xs.dedup

/-- Python's `sorted(set(xs))` for the equivalent-atom indices. -/
def sortedSetNat (xs : List ℕ) : List ℕ := List.insertionSort (· ≤ ·) xs.dedup

/-- A `[f(x) for x in xs]` comprehension whose body can raise
(`KeyError`/`IndexError`): `none` if any element fails. -/
def mapOption {α β : Type} (f : α → Option β) : List α → Option (List β)
  | [] => some []
  | a :: l =>
    match f a, mapOption f l with
    | some b, some bs => some (b :: bs)
    | _, _ => none

/-- The `replace_list` construction of `get_sublattice_information`:
walk the representative Wyckoff letters, appending
`letter + str(Counter(original_list)[letter])` whenever the letter was
already produced, the bare letter otherwise. -/
def buildReplaceList : List String → List String → List String → List String
  | [], _, repl => repl
  | i :: rest, orig, repl =>
    let orig2 := orig ++ [i]
    let j := if i ∈ repl then i ++ toString (orig2.count i) else i
    buildReplaceList rest orig2 (repl ++ [j])

/-- The pure classification logic of `get_sublattice_information`, from
the two pymatgen `SpacegroupAnalyzer` outputs (`wyckoffs` per site and
`equivalent_atoms` per site).  The boolean records whether the warning
was printed (count mismatch between the two classifications); the
`Option` is `none` exactly when the Python code would raise an
`IndexError`/`KeyError` on the lookups of the `use_equivalent_atom`
branch. -/
def get_sublattice_information (wyckoff_sites : List String)
    (equal_atom : List ℕ) (use_equivalent_atom : Bool) :
    Bool × Option (List String × List String × List ℕ) :=
  let num_wyckoff_sites := sortedSetStr wyckoff_sites
  let num_eq_atom := sortedSetNat equal_atom
  let warned := num_wyckoff_sites.length != num_eq_atom.length
  let true_sublattice_sites :=
    if use_equivalent_atom then
      match mapOption (fun i => wyckoff_sites[i]?) num_eq_atom with
      | none => none
      | some sub_wyckoff_name =>
        let replace_list := buildReplaceList sub_wyckoff_name [] []
        let replace_dict := num_eq_atom.zip replace_list
        mapOption (fun i => List.lookup i replace_dict) equal_atom
    else some wyckoff_sites
  match true_sublattice_sites with
  | none => (warned, none)
  | some ts =>
    let subl_model_name := sortedSetStr ts
    let sublattice_site_ratio := subl_model_name.map fun i => ts.count i
    (warned, some (ts, subl_model_name, sublattice_site_ratio))

/-- The first statement of `get_sublattice_information`,
`structure.replace_species({sp.name: "H" for sp in structure.species})`,
executed in place on the caller's structure: every species present is a
key of the comprehension's dict and maps to `'H'`. -/
def speciesToH (s : PStructure) : PStructure :=
  replace_species (s.sites.map fun site => (site.element, "H")) s

/-- The function `get_sublattice_information` including its effect on the caller's
structure: the argument's species are replaced by `'H'` in place, then
pymatgen's symmetry analysis (the external oracles `wyf`/`eqf`) runs on
the modified structure and the classification logic produces the
result.  The first component is the caller's structure after the call. -/
def get_sublattice_information_state (wyf : PStructure → List String)
    (eqf : PStructure → List ℕ) (s : PStructure) (use_equivalent_atom : Bool) :
    PStructure × (Bool × Option (List String × List String × List ℕ)) :=
  let s2 := speciesToH s
  (s2, get_sublattice_information (wyf s2) (eqf s2) use_equivalent_atom)

theorem mapOption_some_of_forall {α β : Type} (f : α → Option β) :
    ∀ l : List α, (∀ a ∈ l, (f a).isSome) →
      ∃ bs, mapOption f l = some bs ∧ bs.length = l.length
  | [], _ => ⟨[], rfl, rfl⟩
  | a :: l, h => by
    obtain ⟨b, hb⟩ := Option.isSome_iff_exists.mp (h a (by simp))
    obtain ⟨bs, hbs, hlen⟩ :=
      mapOption_some_of_forall f l (fun x hx => h x (by simp [hx]))
    exact ⟨b :: bs, by simp [mapOption, hb, hbs], by simp [hlen]⟩

theorem lookup_zip_isSome {β : Type} :
    ∀ (as : List ℕ) (bs : List β) (i : ℕ), i ∈ as → as.length = bs.length →
      (List.lookup i (as.zip bs)).isSome
  | [], _, _, hi, _ => by simp at hi
  | _ :: _, [], _, _, hlen => by simp at hlen
  | a :: as, b :: bs, i, hi, hlen => by
    simp only [List.zip_cons_cons, List.lookup_cons]
    rcases hbeq : (i == a) with _ | _
    · have hi2 : i ∈ as := by
        rcases List.mem_cons.mp hi with h | h
        · exact absurd (beq_iff_eq.mpr h) (by simp [hbeq])
        · exact h
      exact lookup_zip_isSome as bs i hi2 (by simpa using hlen)
    · simp

theorem buildReplaceList_length :
    ∀ (l orig repl : List String),
      (buildReplaceList l orig repl).length = repl.length + l.length
  | [], _, _ => by simp [buildReplaceList]
  | i :: rest, orig, repl => by
    simp only [buildReplaceList]
    rw [buildReplaceList_length rest]
    simp
    omega

theorem lookup_map_const {α : Type} (f : α → String) (c : String) :
    ∀ (l : List α) (k : String), k ∈ l.map f →
      List.lookup k (l.map fun t => (f t, c)) = some c
  | [], _, h => by simp at h
  | a :: l, k, h => by
    simp only [List.map_cons, List.lookup_cons]
    rcases hbeq : (k == f a) with _ | _
    · have hk : k ∈ l.map f := by
        rcases List.mem_map.mp h with ⟨t, ht, hft⟩
        rcases List.mem_cons.mp ht with rfl | ht2
        · exact absurd (beq_iff_eq.mpr hft.symm) (by simp [hbeq])
        · exact hft ▸ List.mem_map_of_mem f ht2
      exact lookup_map_const f c l k hk
    · rfl

/-- C7: whenever the number of distinct Wyckoff letters differs from the
number of distinct equivalent-atom classes,
`get_sublattice_information` prints its warning (first component `true`)
and raises no exception: it still returns the normal triple — the
per-site sublattice labels of the chosen classification, their sorted
deduplication as the sublattice model name, and the per-sublattice label
counts as site ratios.  The hypothesis `hidx` is pymatgen's guarantee
that `equivalent_atoms` holds site indices. -/
theorem get_sublattice_information_warns
    (wyckoff_sites : List String) (equal_atom : List ℕ) (use_equivalent_atom : Bool)
    (hidx : ∀ i ∈ equal_atom, i < wyckoff_sites.length)
    (hmis : (sortedSetStr wyckoff_sites).length ≠ (sortedSetNat equal_atom).length) :
    (get_sublattice_information wyckoff_sites equal_atom use_equivalent_atom).1 = true ∧
    ∃ ts, (get_sublattice_information wyckoff_sites equal_atom use_equivalent_atom).2 =
      some (ts, sortedSetStr ts, (sortedSetStr ts).map fun i => ts.count i) := by
  have hwarn : ((sortedSetStr wyckoff_sites).length !=
      (sortedSetNat equal_atom).length) = true := by simpa using hmis
  cases use_equivalent_atom with
  | false =>
    refine ⟨by simp [get_sublattice_information, hwarn], wyckoff_sites, ?_⟩
    simp [get_sublattice_information]
  | true =>
    obtain ⟨swn, hswn, hswnlen⟩ := mapOption_some_of_forall
      (fun i => wyckoff_sites[i]?) (sortedSetNat equal_atom)
      (fun i hi => by
        have : i ∈ equal_atom :=
          List.mem_dedup.mp ((List.mem_insertionSort _).mp hi)
        simp [List.getElem?_eq_getElem (hidx i this)])
    obtain ⟨ts, hts, htslen⟩ := mapOption_some_of_forall
      (fun i => List.lookup i
        ((sortedSetNat equal_atom).zip (buildReplaceList swn [] [])))
      equal_atom
      (fun i hi => by
        refine lookup_zip_isSome _ _ i ?_ ?_
        · exact (List.mem_insertionSort _).mpr (List.mem_dedup.mpr hi)
        · rw [buildReplaceList_length, hswnlen]
          simp)
    refine ⟨?_, ts, ?_⟩
    · simp [get_sublattice_information, hswn, hts, hwarn]
    · simp [get_sublattice_information, hswn, hts]

/-- Witness for `get_sublattice_information_warns`: two equivalent-atom
classes sharing one Wyckoff letter. -/
theorem get_sublattice_information_warns_witness :
    (∀ i ∈ [0, 1], i < (["a", "a"] : List String).length) ∧
    (sortedSetStr ["a", "a"]).length ≠ (sortedSetNat [0, 1]).length ∧
    ((get_sublattice_information ["a", "a"] [0, 1] true).1 = true ∧
     ∃ ts, (get_sublattice_information ["a", "a"] [0, 1] true).2 =
       some (ts, sortedSetStr ts, (sortedSetStr ts).map fun i => ts.count i)) :=
  ⟨by decide, by decide,
    get_sublattice_information_warns ["a", "a"] [0, 1] true (by decide) (by decide)⟩

/-- C8: `get_sublattice_information` mutates its argument in place:
whatever the symmetry oracles and flag, after the call every site of the
caller's structure holds species `'H'`. -/
theorem get_sublattice_information_mutates
    (wyf : PStructure → List String) (eqf : PStructure → List ℕ)
    (s : PStructure) (use_equivalent_atom : Bool) :
    ∀ site ∈ (get_sublattice_information_state wyf eqf s use_equivalent_atom).1.sites,
      site.element = "H" := by
  intro site hsite
  simp only [get_sublattice_information_state, speciesToH, replace_species] at hsite
  obtain ⟨site0, hmem, rfl⟩ := List.mem_map.mp hsite
  have h : List.lookup site0.element (s.sites.map fun t => (t.element, "H")) =
      some "H" :=
    lookup_map_const (fun t : PSite => t.element) "H" s.sites site0.element
      (List.mem_map_of_mem _ hmem)
  simp [h]

/-- Witness for `get_sublattice_information_mutates` on a one-site
structure holding iron. -/
theorem get_sublattice_information_mutates_witness :
    PSite.mk "H" "a" ∈
      (get_sublattice_information_state (fun _ => []) (fun _ => [])
        (PStructure.mk [PSite.mk "Fe" "a"] 1) false).1.sites ∧
    (PSite.mk "H" "a").element = "H" :=
  ⟨by decide,
    get_sublattice_information_mutates (fun _ => []) (fun _ => [])
      (PStructure.mk [PSite.mk "Fe" "a"] 1) false (PSite.mk "H" "a") (by decide)⟩

/-- Python's strict `<` on strings (code-point lexicographic). -/
def strlt (a b : String) : Prop := charListLt a.data b.data = true

instance : DecidableRel strlt :=
  fun a b => instDecidableEqBool (charListLt a.data b.data) true

theorem strlt_strle {a b : String} (h : strlt a b) : strle a b := by
  simp only [strle, pyLe, Bool.not_eq_true']
  exact charListLt_asymm _ _ h

theorem strlt_ne {a b : String} (h : strlt a b) : a ≠ b := by
  rintro rfl
  exact absurd h (by simp [strlt, charListLt_irrefl])

/-- Python's `itertools.product(*lists)`: the Cartesian product of the lists, the
rightmost factor varying fastest. -/
def cartProd {α : Type} : List (List α) → List (List α)
  | [] => [[]]
  | l :: ls => l.flatMap fun x => (cartProd ls).map (x :: ·)

theorem cartProd_length {α : Type} :
    ∀ ls : List (List α), (cartProd ls).length = (ls.map List.length).prod
  | [] => rfl
  | l :: ls => by
    simp only [cartProd, List.length_flatMap, List.map_cons, List.prod_cons,
      Function.comp_def, List.length_map, List.map_const', List.sum_replicate,
      smul_eq_mul]
    rw [cartProd_length ls]

/-- The dict `element_dict = dict(map(lambda x, y: [x, y], template_configuration,
sublattice_configuration))`: `map` over two lists truncates to the
shorter, and `dict` inserts the pairs in order. -/
def element_dict_of (template_configuration : List String)
    (sublattice_configuration : List (List String)) : List (String × List String) :=
  (template_configuration.zip sublattice_configuration).foldl
    (fun d p => dictInsert d p.1 p.2) []

/-- The function `get_endmembers_with_templates`: build `element_dict`, take
`product(*map(element_dict.get, sorted(element_dict)))` — the Cartesian
product of the per-key species lists over the *sorted keys* — and
substitute each combination into the template
(`substitute_configuration(template, [template_configuration], [comb])`).
`element_dict.get` can only be queried at the dict's own keys here, so
the `.getD []` default is never exercised. -/
def get_endmembers_with_templates (scale : PStructure → PStructure)
    (template_structure : PStructure) (template_configuration : List String)
    (sublattice_configuration : List (List String)) :
    List (List String) × List PStructure :=
  let element_dict := element_dict_of template_configuration sublattice_configuration
  let subl_combination :=
    cartProd ((pySortStrings (element_dict.map Prod.fst)).map
      fun k => (List.lookup k element_dict).getD [])
  (subl_combination,
   subl_combination.map fun i =>
     substitute_configuration scale template_structure [template_configuration] [i])

theorem dictInsert_fresh {β : Type} (k : String) (v : β) :
    ∀ d : List (String × β), k ∉ d.map Prod.fst → dictInsert d k v = d ++ [(k, v)]
  | [], _ => rfl
  | (k', v') :: rest, h => by
    have hne : k' ≠ k := fun he => h (by simp [he])
    simp only [dictInsert, if_neg hne, List.cons_append, List.cons.injEq, true_and]
    exact dictInsert_fresh k v rest (fun hm => h (by simp [hm]))

theorem foldl_dictInsert_fresh {β : Type} :
    ∀ (ps : List (String × β)) (d : List (String × β)),
      (∀ p ∈ ps, p.1 ∉ d.map Prod.fst) → (ps.map Prod.fst).Nodup →
      ps.foldl (fun d2 p => dictInsert d2 p.1 p.2) d = d ++ ps
  | [], d, _, _ => by simp
  | p :: ps, d, hfresh, hnodup => by
    rw [List.map_cons, List.nodup_cons] at hnodup
    obtain ⟨hp1, hps⟩ := hnodup
    simp only [List.foldl_cons]
    rw [dictInsert_fresh p.1 p.2 d (hfresh p (by simp))]
    have hfresh2 : ∀ q ∈ ps, q.1 ∉ (d ++ [(p.1, p.2)]).map Prod.fst := by
      intro q hq hmem
      rw [List.map_append] at hmem
      rcases List.mem_append.mp hmem with h | h
      · exact hfresh q (by simp [hq]) h
      · simp only [List.map_cons, List.map_nil, List.mem_singleton] at h
        exact hp1 (h ▸ List.mem_map_of_mem Prod.fst hq)
    rw [foldl_dictInsert_fresh ps (d ++ [(p.1, p.2)]) hfresh2 hps]
    simp

theorem element_dict_of_eq_zip (tc : List String) (sc : List (List String))
    (hnodup : tc.Nodup) (hle : tc.length ≤ sc.length) :
    element_dict_of tc sc = tc.zip sc := by
  unfold element_dict_of
  rw [foldl_dictInsert_fresh (tc.zip sc) [] (by simp)
    (by rw [List.map_fst_zip tc sc hle]; exact hnodup)]
  simp

theorem map_lookup_zip :
    ∀ (tc : List String) (sc : List (List String)), tc.Nodup →
      tc.length = sc.length →
      tc.map (fun k => (List.lookup k (tc.zip sc)).getD []) = sc
  | [], [], _, _ => rfl
  | [], _ :: _, _, h => by simp at h
  | _ :: _, [], _, h => by simp at h
  | k0 :: tc, s0 :: sc, hnodup, hlen => by
    rw [List.zip_cons_cons, List.map_cons]
    refine List.cons_eq_cons.mpr ⟨?_, ?_⟩
    · simp [List.lookup_cons]
    · have hk0 : k0 ∉ tc := (List.nodup_cons.mp hnodup).1
      have hcongr : tc.map (fun k => (List.lookup k ((k0, s0) :: tc.zip sc)).getD []) =
          tc.map (fun k => (List.lookup k (tc.zip sc)).getD []) := by
        refine List.map_congr_left ?_
        intro k hk
        have hne : (k == k0) = false := by
          simp only [beq_eq_false_iff_ne, ne_eq]
          rintro rfl
          exact hk0 hk
        simp [List.lookup_cons, hne]
      rw [hcongr, map_lookup_zip tc sc (List.nodup_cons.mp hnodup).2 (by simpa using hlen)]

/-- C4 (counterexample): with template configuration `['B', 'A']` and
species lists `[['x'], ['y']]`, the code's combination list pairs the
choices in sorted-key order (`['A', 'B']`), yielding `[['y', 'x']]`,
which is not the Cartesian product `[['x', 'y']]` taken in sublattice
order. -/
theorem get_endmembers_with_templates_counterexample :
    (get_endmembers_with_templates id (PStructure.mk [] 1)
      ["B", "A"] [["x"], ["y"]]).1 = [["y", "x"]] ∧
    cartProd [["x"], ["y"]] = [["x", "y"]] ∧
    (get_endmembers_with_templates id (PStructure.mk [] 1)
      ["B", "A"] [["x"], ["y"]]).1 ≠ cartProd [["x"], ["y"]] := by
  refine ⟨by decide, by decide, by decide⟩

/-- C4 (amended): when the template configuration is strictly increasing
in Python's string order (as produced by `get_templates` for up to three
sublattices, `H < He < Li`) and has one entry per sublattice,
`get_endmembers_with_templates` returns the Cartesian product of the
candidate-species lists taken one choice per sublattice in sublattice
order — its length the product of the per-sublattice list lengths —
together with one substituted endmember per combination. -/
theorem get_endmembers_with_templates_product (scale : PStructure → PStructure)
    (t : PStructure) (tc : List String) (sc : List (List String))
    (hlen : tc.length = sc.length) (hsorted : List.Sorted strlt tc) :
    (get_endmembers_with_templates scale t tc sc).1 = cartProd sc ∧
    (get_endmembers_with_templates scale t tc sc).1.length =
      (sc.map List.length).prod ∧
    (get_endmembers_with_templates scale t tc sc).2 =
      (get_endmembers_with_templates scale t tc sc).1.map
        (fun c => substitute_configuration scale t [tc] [c]) := by
  have hnodup : tc.Nodup := hsorted.imp fun h => strlt_ne h
  have hdict : element_dict_of tc sc = tc.zip sc :=
    element_dict_of_eq_zip tc sc hnodup (le_of_eq hlen)
  have hkeys : (element_dict_of tc sc).map Prod.fst = tc := by
    rw [hdict]
    exact List.map_fst_zip tc sc (le_of_eq hlen)
  have hsortkeys : pySortStrings ((element_dict_of tc sc).map Prod.fst) = tc := by
    rw [hkeys]
    exact List.Sorted.insertionSort_eq (hsorted.imp fun h => strlt_strle h)
  have hfirst : (get_endmembers_with_templates scale t tc sc).1 = cartProd sc := by
    simp only [get_endmembers_with_templates]
    rw [hsortkeys, hdict, map_lookup_zip tc sc hnodup hlen]
  refine ⟨hfirst, ?_, rfl⟩
  rw [hfirst, cartProd_length]

/-- Witness for `get_endmembers_with_templates_product` at the standard
template naming `['H', 'He', 'Li']`. -/
theorem get_endmembers_with_templates_product_witness :
    (["H", "He", "Li"] : List String).length =
      ([["Fe", "Ni"], ["Al"], ["Cr", "Mo"]] : List (List String)).length ∧
    List.Sorted strlt ["H", "He", "Li"] ∧
    ((get_endmembers_with_templates id (PStructure.mk [] 1) ["H", "He", "Li"]
        [["Fe", "Ni"], ["Al"], ["Cr", "Mo"]]).1 =
      cartProd [["Fe", "Ni"], ["Al"], ["Cr", "Mo"]] ∧
     (get_endmembers_with_templates id (PStructure.mk [] 1) ["H", "He", "Li"]
        [["Fe", "Ni"], ["Al"], ["Cr", "Mo"]]).1.length =
      (([["Fe", "Ni"], ["Al"], ["Cr", "Mo"]] : List (List String)).map
        List.length).prod ∧
     (get_endmembers_with_templates id (PStructure.mk [] 1) ["H", "He", "Li"]
        [["Fe", "Ni"], ["Al"], ["Cr", "Mo"]]).2 =
      (get_endmembers_with_templates id (PStructure.mk [] 1) ["H", "He", "Li"]
        [["Fe", "Ni"], ["Al"], ["Cr", "Mo"]]).1.map
        (fun c => substitute_configuration id (PStructure.mk [] 1)
          [["H", "He", "Li"]] [c])) :=
  ⟨rfl, by decide,
    get_endmembers_with_templates_product id (PStructure.mk [] 1)
      ["H", "He", "Li"] [["Fe", "Ni"], ["Al"], ["Cr", "Mo"]] rfl (by decide)⟩

/-! ## `dilute_structure_tools.py` -/

/-- The perturbed site indices of `dilute_substitution`:
`[i for i in range(len(sub_lattice_list)) if i != 0 and
sub_lattice_list[i] != sub_lattice_list[i-1]]`. -/
def dilute_nums (sub_lattice_list : List String) : List ℕ :=
  (List.range sub_lattice_list.length).filter fun i =>
    (i != 0) && (sub_lattice_list.getD i "" != sub_lattice_list.getD (i - 1) "")

/-- The update `dictstr['sites'][i]['species'][0]['element'] = j` followed by
`Structure.from_dict(dictstr)`: the endmember with the species of site
`i` replaced by `j`, everything else unchanged. -/
def setSiteElement (s : PStructure) (i : ℕ) (j : String) : PStructure :=
  { s with sites := s.sites.set i { s.sites.getD i default with element := j } }

/-- The dilute structure list built by `dilute_substitution` from the
already deep-copied and supercell-expanded endmembers.  For each
endmember, each perturbable site `i` restarts from a fresh
`strs.as_dict()`; within the site the inner loop overwrites the same
single species field before each append, so each appended structure is
the endmember with exactly site `i` changed to a non-`'fix'` candidate
species differing from the endmember's. -/
def dilute_strs (structures : List PStructure)
    (sublattice_dict : String → List String) : List PStructure :=
  structures.flatMap fun strs =>
    let sub_lattice_list := strs.sites.map (fun site => site.sublattice)
    (dilute_nums sub_lattice_list).flatMap fun i =>
      let old_ele := (strs.sites.getD i default).element
      let sublattice_num := sub_lattice_list.getD i ""
      ((sublattice_dict sublattice_num).filter fun j =>
        (j != "fix") && (old_ele != j)).map fun j => setSiteElement strs i j

/-- The function `dilute_substitution`: deep-copy the endmembers, optionally expand
each copy with pymatgen's `make_supercell` (external: parameter
`expand`), then build the dilute structures.  The function's second
return value (`dilute_conf`) only reads the dilute structures, so the
first return value is the list modelled here. -/
def dilute_substitution (expand : List (List ℤ) → PStructure → PStructure)
    (endmembers : List PStructure) (sublattice_dict : String → List String)
    (supercell_matrix : Option (List (List ℤ))) : List PStructure :=
  let structures :=
    match supercell_matrix with
    | none => endmembers
    | some m => endmembers.map (expand m)
  dilute_strs structures sublattice_dict

theorem getD_map_sublattice (sites : List PSite) (i : ℕ) (h : i < sites.length) :
    (sites.map fun site => site.sublattice).getD i "" =
      (sites.getD i default).sublattice := by
  rw [List.getD_eq_getElem?_getD, List.getD_eq_getElem?_getD,
    List.getElem?_map, List.getElem?_eq_getElem h]
  rfl

theorem getD_set_self {α : Type} [Inhabited α] (l : List α) (i : ℕ) (x : α)
    (h : i < l.length) : (l.set i x).getD i default = x := by
  rw [List.getD_eq_getElem?_getD, List.getElem?_set_self', List.getElem?_eq_getElem h]
  rfl

theorem getD_set_ne {α : Type} [Inhabited α] (l : List α) (i i2 : ℕ) (x : α)
    (h : i2 ≠ i) : (l.set i x).getD i2 default = l.getD i2 default := by
  rw [List.getD_eq_getElem?_getD, List.getD_eq_getElem?_getD,
    List.getElem?_set_ne (fun he => h he.symm)]

/-- C5: every structure in the first list returned by
`dilute_substitution` is a single-site perturbation of one of the input
endmember structures (after optional supercell expansion): exactly one
site's species changes, to a species drawn from the `sublattice_dict`
entry for that site's sublattice which is neither the `'fix'` tag nor
the species the endmember had there; the lattice, the perturbed site's
properties, and all other sites are unchanged. -/
theorem dilute_substitution_single_site
    (expand : List (List ℤ) → PStructure → PStructure)
    (endmembers : List PStructure) (sublattice_dict : String → List String)
    (supercell_matrix : Option (List (List ℤ))) (out : PStructure)
    (hout : out ∈ dilute_substitution expand endmembers sublattice_dict
      supercell_matrix) :
    ∃ e ∈ (match supercell_matrix with
           | none => endmembers
           | some m => endmembers.map (expand m)),
      ∃ i j, i < e.sites.length ∧
        j ∈ sublattice_dict (e.sites.getD i default).sublattice ∧
        j ≠ "fix" ∧ j ≠ (e.sites.getD i default).element ∧
        out.lattice = e.lattice ∧
        out.sites = e.sites.set i { e.sites.getD i default with element := j } ∧
        (out.sites.getD i default).element = j ∧
        (out.sites.getD i default).sublattice =
          (e.sites.getD i default).sublattice ∧
        ∀ i2, i2 ≠ i → out.sites.getD i2 default = e.sites.getD i2 default := by
  simp only [dilute_substitution, dilute_strs] at hout
  obtain ⟨e, he, hout2⟩ := List.mem_flatMap.mp hout
  obtain ⟨i, hi, hout3⟩ := List.mem_flatMap.mp hout2
  obtain ⟨j, hj, rfl⟩ := List.mem_map.mp hout3
  rw [List.mem_filter] at hj
  obtain ⟨hjmem, hcond⟩ := hj
  have hilt : i < e.sites.length := by
    have h2 := (List.mem_filter.mp (by simpa only [dilute_nums] using hi)).1
    simpa using List.mem_range.mp h2
  simp only [Bool.and_eq_true, bne_iff_ne, ne_eq] at hcond
  refine ⟨e, he, i, j, hilt, ?_, hcond.1, fun hje => hcond.2 hje.symm, rfl, rfl,
    ?_, ?_, ?_⟩
  · rwa [getD_map_sublattice e.sites i hilt] at hjmem
  · simp only [setSiteElement]
    rw [getD_set_self e.sites i _ hilt]
  · simp only [setSiteElement]
    rw [getD_set_self e.sites i _ hilt]
  · intro i2 hne
    simp only [setSiteElement]
    rw [getD_set_ne e.sites i i2 _ hne]

/-- Concrete endmember for the `dilute_substitution` witness. -/
def diluteEndmemberEx : PStructure :=
  PStructure.mk [PSite.mk "Al" "a", PSite.mk "Nb" "b"] 1

/-- Concrete sublattice dictionary for the `dilute_substitution` witness. -/
def diluteDictEx : String → List String :=
  fun s => if s = "b" then ["fix", "Mo"] else []

/-- Concrete dilute structure for the `dilute_substitution` witness. -/
def diluteOutEx : PStructure :=
  PStructure.mk [PSite.mk "Al" "a", PSite.mk "Mo" "b"] 1

/-- Witness for `dilute_substitution_single_site`: the two-site endmember
`[Al@a, Nb@b]` produces the dilute structure `[Al@a, Mo@b]`. -/
theorem dilute_substitution_single_site_witness :
    diluteOutEx ∈ dilute_substitution (fun _ s => s) [diluteEndmemberEx]
      diluteDictEx none ∧
    ∃ e ∈ [diluteEndmemberEx],
      ∃ i j, i < e.sites.length ∧
        j ∈ diluteDictEx (e.sites.getD i default).sublattice ∧
        j ≠ "fix" ∧ j ≠ (e.sites.getD i default).element ∧
        diluteOutEx.lattice = e.lattice ∧
        diluteOutEx.sites = e.sites.set i { e.sites.getD i default with element := j } ∧
        (diluteOutEx.sites.getD i default).element = j ∧
        (diluteOutEx.sites.getD i default).sublattice =
          (e.sites.getD i default).sublattice ∧
        ∀ i2, i2 ≠ i →
          diluteOutEx.sites.getD i2 default = e.sites.getD i2 default :=
  ⟨by decide,
    dilute_substitution_single_site (fun _ s => s) [diluteEndmemberEx]
      diluteDictEx none diluteOutEx (by decide)⟩

/-! ## `sqs_tools.py` -/

/-- An `AbstractSQS`: a pymatgen structure whose species are abstract
(`'Xab'` is species `b` of sublattice `a`), with the sublattice model
and the sublattice names.  `sublattice_site_ratios` is the `@property`
of that name — one integer count per abstract species, computed by
pymatgen from the structure's reduced composition (external composition
bookkeeping) — carried here as a field. -/
structure AbstractSQS where
  sites : List String
  sublattice_model : List (List String)
  sublattice_names : List String
  sublattice_site_ratios : List (List ℕ)
deriving DecidableEq

/-- The exceptions `get_concrete_sqs` and `enumerate_sqs` raise: the
explicit `ValueError` on sublattice-model length mismatch, and the
`KeyError` of the `occupancies[specie]` lookup. -/
inductive SqsError where
  | lengthMismatch
  | keyError
deriving DecidableEq

/-- The concrete SQS `get_concrete_sqs` builds: a `PRLStructure` from the
substituted sites, with the three sublattice attributes the function
sets.  The optional `scale_volume` rescaling only changes the lattice
through pymatgen (`scale_lattice` with the external element-density
table) and none of these data. -/
structure ConcreteSQS where
  sites : List String
  sublattice_configuration : List (List String)
  sublattice_occupancies : List (List ℚ)
  sublattice_site_ratios : List ℕ
deriving DecidableEq

/-- Python `zip` over three lists. -/
def zip3 {α β γ : Type} : List α → List β → List γ → List (α × β × γ)
  | a :: as, b :: bs, c :: cs => (a, b, c) :: zip3 as bs cs
  | _, _, _ => []

/-- Python `zip` over four lists. -/
def zip4 {α β γ δ : Type} : List α → List β → List γ → List δ → List (α × β × γ × δ)
  | a :: as, b :: bs, c :: cs, d :: ds => (a, b, c, d) :: zip4 as bs cs ds
  | _, _, _, _ => []

/-- The method `AbstractSQS.get_concrete_sqs`: check the concrete sublattice model's
length, build the replacement dict (`'X' + subl_name + abstract_specie`
to concrete species) and the per-sublattice occupancy dicts
(`occupancies[concrete] += site_ratio / ratio_sum`), substitute the
sites, and read the sorted deduplicated configuration's occupancies back
out of the dicts — a `KeyError` if a species is missing. -/
def get_concrete_sqs (s : AbstractSQS) (subl_model : List (List String)) :
    Except SqsError ConcreteSQS :=
  if subl_model.length ≠ s.sublattice_model.length then
    .error .lengthMismatch
  else
    let zipped :=
      zip4 s.sublattice_model subl_model s.sublattice_names s.sublattice_site_ratios
    let replacement_dict := zipped.foldl (fun d q =>
      (zip3 q.1 q.2.1 q.2.2.2).foldl
        (fun d2 t => dictInsert d2 ("X" ++ q.2.2.1 ++ t.1) t.2.1) d) []
    let site_occupancies := zipped.map (fun q =>
      let sublattice_ratio_sum : ℚ := ((q.2.2.2).map (fun r => (r : ℚ))).sum
      (zip3 q.1 q.2.1 q.2.2.2).foldl
        (fun d2 t => dictAdd d2 t.2.1 ((t.2.2 : ℚ) / sublattice_ratio_sum)) [])
    let substituted_sites :=
      s.sites.map (fun sp => (List.lookup sp replacement_dict).getD sp)
    let sublattice_configuration := subl_model.map (fun subl => sortedSetStr subl)
    match mapOption (fun p : List (String × ℚ) × List String =>
        mapOption (fun specie => List.lookup specie p.1) p.2)
        (site_occupancies.zip sublattice_configuration) with
    | none => .error .keyError
    | some sublattice_occupancies =>
      .ok { sites := substituted_sites,
            sublattice_configuration := sublattice_configuration,
            sublattice_occupancies := sublattice_occupancies,
            sublattice_site_ratios := s.sublattice_site_ratios.map List.sum }

/-- The deduplication key of `enumerate_sqs`:
`(proposed_sqs.sublattice_configuration, proposed_sqs.sublattice_occupancies)`. -/
def sqsKey (c : ConcreteSQS) : List (List String) × List (List ℚ) :=
  (c.sublattice_configuration, c.sublattice_occupancies)

/-- Python's `itertools.product(subl, repeat=n)`: all length-`n` tuples over
`subl`, leftmost position varying slowest. -/
def tuplesOf {α : Type} (l : List α) : ℕ → List (List α)
  | 0 => [[]]
  | n + 1 => l.flatMap fun x => (tuplesOf l n).map (x :: ·)

/-- The candidate models of `enumerate_sqs`:
`product(*[product(subl, repeat=len(abstract_subl)) for subl, abstract_subl
in zip(subl_model, structure.sublattice_model)])`. -/
def unique_subl_models (s : AbstractSQS) (subl_model : List (List String)) :
    List (List (List String)) :=
  cartProd ((subl_model.zip s.sublattice_model).map fun p => tuplesOf p.1 p.2.length)

/-- The enumeration loop of `enumerate_sqs`: convert each candidate model
and keep it when its (configuration, occupancies) key is unseen. -/
def enumLoop (s : AbstractSQS) :
    List (List (List String)) → List (List (List String) × List (List ℚ)) →
    Except SqsError (List ConcreteSQS)
  | [], _ => .ok []
  | mo :: rest, seen =>
    match get_concrete_sqs s mo with
    | .error e => .error e
    | .ok c =>
      if sqsKey c ∈ seen then enumLoop s rest seen
      else
        match enumLoop s rest (sqsKey c :: seen) with
        | .error e => .error e
        | .ok l => .ok (c :: l)

/-- The function `enumerate_sqs`: length check, then enumerate all candidate concrete
sublattice models and deduplicate by the (configuration, occupancies)
pair, keeping first occurrences. -/
def enumerate_sqs (s : AbstractSQS) (subl_model : List (List String)) :
    Except SqsError (List ConcreteSQS) :=
  if subl_model.length ≠ s.sublattice_model.length then .error .lengthMismatch
  else enumLoop s (unique_subl_models s subl_model) []

/-- Well-formedness of an `AbstractSQS` as pymatgen produces it: one
sublattice name per sublattice, and (from the reduced composition) one
positive integer site count per abstract species of each sublattice. -/
def abstract_sqs_wf (s : AbstractSQS) : Prop :=
  s.sublattice_names.length = s.sublattice_model.length ∧
  s.sublattice_site_ratios.length = s.sublattice_model.length ∧
  ∀ p ∈ s.sublattice_site_ratios.zip s.sublattice_model,
    p.1.length = p.2.length ∧ ∀ x ∈ p.1, 0 < x

instance (s : AbstractSQS) : Decidable (abstract_sqs_wf s) := by
  unfold abstract_sqs_wf
  infer_instance

theorem get_concrete_sqs_ne_lengthMismatch (s : AbstractSQS)
    (m : List (List String)) (h : m.length = s.sublattice_model.length) :
    get_concrete_sqs s m ≠ Except.error SqsError.lengthMismatch := by
  unfold get_concrete_sqs
  rw [if_neg (by simp [h])]
  dsimp only
  split <;> simp

theorem mem_cartProd_length {α : Type} :
    ∀ {ls : List (List α)} {t : List α}, t ∈ cartProd ls → t.length = ls.length := by
  intro ls
  induction ls with
  | nil =>
    intro t ht
    simp only [cartProd, List.mem_singleton] at ht
    simp [ht]
  | cons l ls ih =>
    intro t ht
    simp only [cartProd, List.mem_flatMap, List.mem_map] at ht
    obtain ⟨x, _, t', ht', rfl⟩ := ht
    simp [ih ht']

theorem mem_cartProd_forall₂ {α : Type} :
    ∀ {ls : List (List α)} {t : List α}, t ∈ cartProd ls →
      List.Forall₂ (fun x l => x ∈ l) t ls := by
  intro ls
  induction ls with
  | nil =>
    intro t ht
    simp only [cartProd, List.mem_singleton] at ht
    simp [ht]
  | cons l ls ih =>
    intro t ht
    simp only [cartProd, List.mem_flatMap, List.mem_map] at ht
    obtain ⟨x, hx, t', ht', rfl⟩ := ht
    exact List.Forall₂.cons hx (ih ht')

theorem mem_tuplesOf {α : Type} (l : List α) :
    ∀ (n : ℕ) (t : List α), t ∈ tuplesOf l n → t.length = n ∧ ∀ x ∈ t, x ∈ l := by
  intro n
  induction n with
  | zero =>
    intro t ht
    simp only [tuplesOf, List.mem_singleton] at ht
    simp [ht]
  | succ n ih =>
    intro t ht
    simp only [tuplesOf, List.mem_flatMap, List.mem_map] at ht
    obtain ⟨x, hx, t', ht', rfl⟩ := ht
    obtain ⟨hlen, hmem⟩ := ih t' ht'
    refine ⟨by simp [hlen], ?_⟩
    intro y hy
    rcases List.mem_cons.mp hy with rfl | hy2
    · exact hx
    · exact hmem y hy2

theorem enumLoop_error (s : AbstractSQS) :
    ∀ (models : List (List (List String)))
      (seen : List (List (List String) × List (List ℚ))) (e : SqsError),
      enumLoop s models seen = .error e →
      ∃ mo ∈ models, get_concrete_sqs s mo = .error e
  | [], _, _, h => by simp [enumLoop] at h
  | mo :: rest, seen, e, h => by
    rw [enumLoop] at h
    rcases hg : get_concrete_sqs s mo with e2 | c
    · rw [hg] at h
      obtain rfl : e2 = e := by simpa using h
      exact ⟨mo, by simp, hg⟩
    · rw [hg] at h
      dsimp only at h
      by_cases hseen : sqsKey c ∈ seen
      · rw [if_pos hseen] at h
        obtain ⟨mo2, hmo2, hget⟩ := enumLoop_error s rest seen e h
        exact ⟨mo2, by simp [hmo2], hget⟩
      · rw [if_neg hseen] at h
        rcases hrec : enumLoop s rest (sqsKey c :: seen) with e2 | l <;> rw [hrec] at h
        · obtain rfl : e2 = e := by simpa using h
          obtain ⟨mo2, hmo2, hget⟩ := enumLoop_error s rest (sqsKey c :: seen) _ hrec
          exact ⟨mo2, by simp [hmo2], hget⟩
        · simp at h

/-- C3 (amended): `get_concrete_sqs` and `enumerate_sqs` raise the
length-mismatch `ValueError` exactly when the caller-supplied concrete
sublattice model's length differs from the abstract sublattice model's;
with equal lengths no length-mismatch exception arises (though the
occupancy lookup can still raise a `KeyError` for ragged inner
sublattices, which is the separate `SqsError.keyError` value here). -/
theorem sqs_length_mismatch_iff (s : AbstractSQS) (m : List (List String)) :
    (get_concrete_sqs s m = .error .lengthMismatch ↔
      m.length ≠ s.sublattice_model.length) ∧
    (enumerate_sqs s m = .error .lengthMismatch ↔
      m.length ≠ s.sublattice_model.length) := by
  constructor
  · constructor
    · intro h heq
      exact get_concrete_sqs_ne_lengthMismatch s m heq h
    · intro hne
      unfold get_concrete_sqs
      rw [if_pos hne]
  · constructor
    · intro h heq
      unfold enumerate_sqs at h
      rw [if_neg (by simp [heq])] at h
      obtain ⟨mo, hmo, hget⟩ := enumLoop_error s _ _ _ h
      have hmolen : mo.length = s.sublattice_model.length := by
        have h1 := mem_cartProd_length hmo
        simp only [unique_subl_models] at h1 ⊢
        rw [h1, List.length_map, List.length_zip, heq]
        simp
      exact get_concrete_sqs_ne_lengthMismatch s mo hmolen hget
    · intro hne
      unfold enumerate_sqs
      rw [if_pos hne]

/-- Concrete abstract SQS for the C3 counterexample: one sublattice with
two abstract species and site counts `[3, 1]`. -/
def sqsC3ex : AbstractSQS :=
  AbstractSQS.mk ["Xaa", "Xaa", "Xaa", "Xab"] [["a", "b"]] ["a"] [[3, 1]]

/-- C3 (counterexample): with a concrete sublattice model of matching
outer length but an over-long inner sublattice (`['Fe', 'Ni', 'Cr']` for
the two abstract species), `get_concrete_sqs` raises: the configuration
contains `'Cr'` but the occupancy dict, built from
`zip(abstract_subl, concrete_subl, subl_ratios)`, has only `'Fe'` and
`'Ni'` as keys, so `occupancies['Cr']` is a `KeyError` — an exception
with equal lengths, contradicting the claim's "raise if and only if the
lengths differ". -/
theorem get_concrete_sqs_keyerror_counterexample :
    ([["Fe", "Ni", "Cr"]] : List (List String)).length =
      sqsC3ex.sublattice_model.length ∧
    get_concrete_sqs sqsC3ex [["Fe", "Ni", "Cr"]] =
      .error .keyError := by
  exact ⟨rfl, rfl⟩

/-- The generic first-occurrence deduplication the `enumerate_sqs` loop
performs: keep an element when its key is not among the already-seen
keys. -/
def dedupKeyed {α κ : Type} [DecidableEq κ] (key : α → κ) :
    List α → List κ → List α
  | [], _ => []
  | x :: xs, seen =>
    if key x ∈ seen then dedupKeyed key xs seen
    else x :: dedupKeyed key xs (key x :: seen)

theorem dedupKeyed_first {α κ : Type} [DecidableEq κ] (key : α → κ) :
    ∀ (l : List α) (seen : List κ) (u : α), u ∈ dedupKeyed key l seen →
      key u ∉ seen ∧ l.find? (fun c => decide (key c = key u)) = some u
  | [], _, _, h => by simp [dedupKeyed] at h
  | x :: xs, seen, u, h => by
    rw [dedupKeyed] at h
    by_cases hx : key x ∈ seen
    · rw [if_pos hx] at h
      obtain ⟨hnot, hfind⟩ := dedupKeyed_first key xs seen u h
      have hne : key x ≠ key u := by
        intro hk
        exact hnot (hk ▸ hx)
      refine ⟨hnot, ?_⟩
      rw [List.find?_cons_of_neg _ (by simp [hne]), hfind]
    · rw [if_neg hx] at h
      rcases List.mem_cons.mp h with rfl | h2
      · exact ⟨hx, by simp [List.find?_cons_of_pos]⟩
      · obtain ⟨hnot, hfind⟩ := dedupKeyed_first key xs (key x :: seen) u h2
        have hnotseen : key u ∉ seen := fun hc => hnot (by simp [hc])
        have hne : key x ≠ key u := by
          intro hk
          exact hnot (by simp [hk])
        refine ⟨hnotseen, ?_⟩
        rw [List.find?_cons_of_neg _ (by simp [hne]), hfind]

theorem dedupKeyed_nodisjoint {α κ : Type} [DecidableEq κ] (key : α → κ) :
    ∀ (l : List α) (seen : List κ) (u : α), u ∈ dedupKeyed key l seen →
      key u ∉ seen :=
  fun l seen u h => (dedupKeyed_first key l seen u h).1

theorem dedupKeyed_nodup {α κ : Type} [DecidableEq κ] (key : α → κ) :
    ∀ (l : List α) (seen : List κ),
      ((dedupKeyed key l seen).map key).Nodup
  | [], _ => by simp [dedupKeyed]
  | x :: xs, seen => by
    rw [dedupKeyed]
    by_cases hx : key x ∈ seen
    · rw [if_pos hx]
      exact dedupKeyed_nodup key xs seen
    · rw [if_neg hx]
      simp only [List.map_cons, List.nodup_cons]
      refine ⟨?_, dedupKeyed_nodup key xs (key x :: seen)⟩
      intro hmem
      obtain ⟨u, hu, hku⟩ := List.mem_map.mp hmem
      exact dedupKeyed_nodisjoint key xs (key x :: seen) u hu (by simp [hku])

theorem dedupKeyed_covers {α κ : Type} [DecidableEq κ] (key : α → κ) :
    ∀ (l : List α) (seen : List κ) (c : α), c ∈ l → key c ∉ seen →
      ∃ u ∈ dedupKeyed key l seen, key u = key c
  | [], _, _, hc, _ => by simp at hc
  | x :: xs, seen, c, hc, hnot => by
    rw [dedupKeyed]
    by_cases hx : key x ∈ seen
    · rw [if_pos hx]
      rcases List.mem_cons.mp hc with rfl | h2
      · exact absurd hx hnot
      · exact dedupKeyed_covers key xs seen c h2 hnot
    · rw [if_neg hx]
      rcases List.mem_cons.mp hc with rfl | h2
      · exact ⟨c, by simp, rfl⟩
      · by_cases hkey : key c = key x
        · exact ⟨x, by simp, hkey.symm⟩
        · obtain ⟨u, hu, hku⟩ := dedupKeyed_covers key xs (key x :: seen) c h2
            (by simp [hnot, hkey])
          exact ⟨u, by simp [hu], hku⟩

theorem dictAdd_lookup_self : ∀ (d : List (String × ℚ)) (k : String) (v : ℚ),
    (List.lookup k (dictAdd d k v)).isSome
  | [], k, v => by simp [dictAdd, List.lookup_cons]
  | (k', v') :: rest, k, v => by
    rw [dictAdd]
    by_cases hk : k' = k
    · rw [if_pos hk]
      subst hk
      simp [List.lookup_cons]
    · rw [if_neg hk]
      have hne : (k == k') = false := by
        simp only [beq_eq_false_iff_ne, ne_eq]
        exact fun he => hk he.symm
      simp only [List.lookup_cons, hne]
      exact dictAdd_lookup_self rest k v

theorem dictAdd_lookup_mono : ∀ (d : List (String × ℚ)) (k2 : String) (v : ℚ)
    (k : String), (List.lookup k d).isSome →
    (List.lookup k (dictAdd d k2 v)).isSome
  | [], _, _, _, h => by simp at h
  | (k', v') :: rest, k2, v, k, h => by
    rw [dictAdd]
    by_cases hk : k' = k2
    · rw [if_pos hk]
      subst hk
      rcases hbeq : (k == k') with _ | _
      · simp only [List.lookup_cons, hbeq] at h ⊢
        exact h
      · simp [List.lookup_cons, hbeq]
    · rw [if_neg hk]
      rcases hbeq : (k == k') with _ | _
      · simp only [List.lookup_cons, hbeq] at h ⊢
        exact dictAdd_lookup_mono rest k2 v k h
      · simp [List.lookup_cons, hbeq]

theorem lookup_foldl_dictAdd {T : Type} (keyf : T → String) (val : T → ℚ) :
    ∀ (ts : List T) (d0 : List (String × ℚ)) (k : String),
      ((List.lookup k d0).isSome ∨ k ∈ ts.map keyf) →
      (List.lookup k (ts.foldl (fun d t => dictAdd d (keyf t) (val t)) d0)).isSome
  | [], d0, k, h => by
    rcases h with h | h
    · simpa using h
    · simp at h
  | t :: ts, d0, k, h => by
    simp only [List.foldl_cons]
    refine lookup_foldl_dictAdd keyf val ts (dictAdd d0 (keyf t) (val t)) k ?_
    rcases h with h | h
    · exact Or.inl (dictAdd_lookup_mono d0 (keyf t) (val t) k h)
    · rcases List.mem_map.mp h with ⟨t2, ht2, hkt⟩
      rcases List.mem_cons.mp ht2 with heq | h2
      · subst heq
        subst hkt
        exact Or.inl (dictAdd_lookup_self d0 _ _)
      · exact Or.inr (List.mem_map.mpr ⟨t2, h2, hkt⟩)

theorem mem_zip3_middle {α γ : Type} :
    ∀ (as : List α) (bs : List String) (cs : List γ),
      bs.length ≤ as.length → bs.length ≤ cs.length →
      ∀ x ∈ bs, x ∈ (zip3 as bs cs).map (fun t => t.2.1)
  | _, [], _, _, _ => by simp
  | [], _ :: _, _, h, _ => by simp at h
  | _ :: _, _ :: _, [], _, h => by simp at h
  | a :: as, b :: bs, c :: cs, ha, hc => by
    intro x hx
    simp only [zip3, List.map_cons, List.mem_cons]
    rcases List.mem_cons.mp hx with rfl | h2
    · exact Or.inl rfl
    · exact Or.inr (mem_zip3_middle as bs cs (by simpa using ha)
        (by simpa using hc) x h2)

theorem mem_zip_map_zip4 {A B C D E F : Type}
    (f : A × B × C × D → E) (g : B → F) :
    ∀ (as : List A) (bs : List B) (cs : List C) (ds : List D)
      (p : E × F), p ∈ ((zip4 as bs cs ds).map f).zip (bs.map g) →
      ∃ a b c d, (a, b, c, d) ∈ zip4 as bs cs ds ∧ p = (f (a, b, c, d), g b)
  | a :: as, b :: bs, c :: cs, d :: ds, p, hp => by
    simp only [zip4, List.map_cons, List.zip_cons_cons] at hp
    rcases List.mem_cons.mp hp with rfl | h2
    · exact ⟨a, b, c, d, by simp [zip4], rfl⟩
    · obtain ⟨a2, b2, c2, d2, hmem, hq⟩ := mem_zip_map_zip4 f g as bs cs ds p h2
      exact ⟨a2, b2, c2, d2, by simp [zip4, hmem], hq⟩
  | [], _, _, _, p, hp => by simp [zip4] at hp
  | _ :: _, [], _, _, p, hp => by simp [zip4] at hp
  | _ :: _, _ :: _, [], _, p, hp => by simp [zip4] at hp
  | _ :: _, _ :: _, _ :: _, [], p, hp => by simp [zip4] at hp

theorem zip4_mem_rel {A B C D : Type} {R : B → A → Prop} {S : D → A → Prop} :
    ∀ (as : List A) (bs : List B) (cs : List C) (ds : List D),
      List.Forall₂ R bs as → List.Forall₂ S ds as →
      ∀ a b c d, (a, b, c, d) ∈ zip4 as bs cs ds → R b a ∧ S d a
  | a :: as, b :: bs, c :: cs, d :: ds, hR, hS, a2, b2, c2, d2, hmem => by
    obtain ⟨hRhead, hRtail⟩ := List.forall₂_cons.mp hR
    obtain ⟨hShead, hStail⟩ := List.forall₂_cons.mp hS
    rw [zip4] at hmem
    rcases List.mem_cons.mp hmem with heq | h2
    · simp only [Prod.mk.injEq] at heq
      obtain ⟨rfl, rfl, rfl, rfl⟩ := heq
      exact ⟨hRhead, hShead⟩
    · exact zip4_mem_rel as bs cs ds hRtail hStail a2 b2 c2 d2 h2
  | [], _, _, _, _, _, _, _, _, _, hmem => by simp [zip4] at hmem
  | _ :: _, [], _, _, _, _, _, _, _, _, hmem => by simp [zip4] at hmem
  | _ :: _, _ :: _, [], _, _, _, _, _, _, _, hmem => by simp [zip4] at hmem
  | _ :: _, _ :: _, _ :: _, [], _, _, _, _, _, _, hmem => by simp [zip4] at hmem

theorem mapOption_isSome_of_forall {α β : Type} {f : α → Option β} {l : List α}
    (h : ∀ a ∈ l, (f a).isSome) : (mapOption f l).isSome := by
  obtain ⟨bs, hbs, _⟩ := mapOption_some_of_forall f l h
  simp [hbs]

theorem mapOption_ne_none {α β : Type} {f : α → Option β} {l : List α}
    (h : ∀ a ∈ l, (f a).isSome) : mapOption f l ≠ none := by
  obtain ⟨bs, hbs, _⟩ := mapOption_some_of_forall f l h
  simp [hbs]

theorem get_concrete_sqs_ok (s : AbstractSQS) (m mo : List (List String))
    (hwf : abstract_sqs_wf s) (hlen : m.length = s.sublattice_model.length)
    (hmo : mo ∈ unique_subl_models s m) :
    ∃ c, get_concrete_sqs s mo = .ok c := by
  obtain ⟨hnames, hratios, hzipwf⟩ := hwf
  have hmolen : mo.length = s.sublattice_model.length := by
    have h1 := mem_cartProd_length hmo
    simp only [unique_subl_models] at h1
    rw [h1, List.length_map, List.length_zip, hlen]
    simp
  have hforall : List.Forall₂ (fun (b : List String)
        (p : List String × List String) => b ∈ tuplesOf p.1 p.2.length) mo
      (m.zip s.sublattice_model) :=
    List.forall₂_map_right_iff.mp (mem_cartProd_forall₂ hmo)
  have hRb : List.Forall₂ (fun (b : List String) (a : List String) =>
      b.length = a.length) mo s.sublattice_model := by
    have himp : List.Forall₂ (fun b (p : List String × List String) =>
        b.length = (Prod.snd p).length) mo (m.zip s.sublattice_model) :=
      List.Forall₂.imp (fun (b : List String) (p : List String × List String) h =>
        (mem_tuplesOf p.1 p.2.length b h).1) hforall
    have hsnd : (m.zip s.sublattice_model).map Prod.snd = s.sublattice_model :=
      List.map_snd_zip m s.sublattice_model (le_of_eq hlen.symm)
    rw [← hsnd]
    exact List.forall₂_map_right_iff.mpr himp
  have hSd : List.Forall₂ (fun (d : List ℕ) (a : List String) =>
      d.length = a.length) s.sublattice_site_ratios s.sublattice_model := by
    rw [List.forall₂_iff_zip]
    exact ⟨hratios, fun {a b} hab => (hzipwf (a, b) hab).1⟩
  unfold get_concrete_sqs
  rw [if_neg (by simp [hmolen])]
  dsimp only
  split
  · rename_i heq
    exfalso
    refine absurd heq (mapOption_ne_none ?_)
    intro p hp
    obtain ⟨a, b, c, d, hq, rfl⟩ := mem_zip_map_zip4 _ _ _ _ _ _ p hp
    obtain ⟨hba, hda⟩ :=
      zip4_mem_rel s.sublattice_model mo s.sublattice_names
        s.sublattice_site_ratios hRb hSd a b c d hq
    refine mapOption_isSome_of_forall ?_
    intro sp hsp
    have hspb : sp ∈ b :=
      List.mem_dedup.mp ((List.mem_insertionSort _).mp hsp)
    refine lookup_foldl_dictAdd (fun t : String × String × ℕ => t.2.1) _ _ _ _
      (Or.inr ?_)
    exact mem_zip3_middle a b d (le_of_eq hba) (le_of_eq (hda ▸ hba)) sp hspb
  · exact ⟨_, rfl⟩

theorem forall₂_mem_left {α β : Type} {R : α → β → Prop} :
    ∀ {l₁ : List α} {l₂ : List β}, List.Forall₂ R l₁ l₂ →
      ∀ a ∈ l₁, ∃ b ∈ l₂, R a b := by
  intro l₁ l₂ h
  induction h with
  | nil => simp
  | @cons a b as bs hab _ ih =>
    intro x hx
    rcases List.mem_cons.mp hx with rfl | h2
    · exact ⟨b, by simp, hab⟩
    · obtain ⟨b2, hb2, hr⟩ := ih x h2
      exact ⟨b2, by simp [hb2], hr⟩

theorem enumLoop_ok (s : AbstractSQS) :
    ∀ (models : List (List (List String)))
      (seen : List (List (List String) × List (List ℚ))),
      (∀ mo ∈ models, ∃ c, get_concrete_sqs s mo = .ok c) →
      ∃ cs, List.Forall₂ (fun mo c => get_concrete_sqs s mo = .ok c) models cs ∧
        enumLoop s models seen = .ok (dedupKeyed sqsKey cs seen)
  | [], seen, _ => ⟨[], List.Forall₂.nil, by simp [enumLoop, dedupKeyed]⟩
  | mo :: rest, seen, hall => by
    obtain ⟨c, hc⟩ := hall mo (by simp)
    by_cases hseen : sqsKey c ∈ seen
    · obtain ⟨cs, hf, hloop⟩ :=
        enumLoop_ok s rest seen (fun x hx => hall x (by simp [hx]))
      refine ⟨c :: cs, List.Forall₂.cons hc hf, ?_⟩
      rw [enumLoop, hc]
      dsimp only
      rw [if_pos hseen, hloop, dedupKeyed, if_pos hseen]
    · obtain ⟨cs, hf, hloop⟩ :=
        enumLoop_ok s rest (sqsKey c :: seen) (fun x hx => hall x (by simp [hx]))
      refine ⟨c :: cs, List.Forall₂.cons hc hf, ?_⟩
      rw [enumLoop, hc]
      dsimp only
      rw [if_neg hseen, hloop]
      dsimp only
      rw [dedupKeyed, if_neg hseen]

/-- C1: for a well-formed abstract SQS and a concrete sublattice model of
matching length, `enumerate_sqs` succeeds; the returned list carries
pairwise distinct (configuration, occupancies) keys; every candidate
model of the Cartesian product converts successfully and its key matches
exactly one returned structure; and every returned structure is the
first conversion, in enumeration order, bearing its key (duplicates are
dropped, first occurrences kept). -/
theorem enumerate_sqs_dedup (s : AbstractSQS) (m : List (List String))
    (hwf : abstract_sqs_wf s) (hlen : m.length = s.sublattice_model.length) :
    ∃ cs L,
      List.Forall₂ (fun mo c => get_concrete_sqs s mo = .ok c)
        (unique_subl_models s m) cs ∧
      enumerate_sqs s m = .ok L ∧
      L = dedupKeyed sqsKey cs [] ∧
      (L.map sqsKey).Nodup ∧
      (∀ mo ∈ unique_subl_models s m, ∃ c, get_concrete_sqs s mo = .ok c ∧
        ∃! u, u ∈ L ∧ sqsKey u = sqsKey c) ∧
      ∀ u ∈ L, cs.find? (fun c => decide (sqsKey c = sqsKey u)) = some u := by
  have hall : ∀ mo ∈ unique_subl_models s m, ∃ c, get_concrete_sqs s mo = .ok c :=
    fun mo hmo => get_concrete_sqs_ok s m mo hwf hlen hmo
  obtain ⟨cs, hf, hloop⟩ := enumLoop_ok s (unique_subl_models s m) [] hall
  have hnodup := dedupKeyed_nodup sqsKey cs []
  refine ⟨cs, dedupKeyed sqsKey cs [], hf, ?_, rfl, hnodup, ?_, ?_⟩
  · unfold enumerate_sqs
    rw [if_neg (by simp [hlen]), hloop]
  · intro mo hmo
    obtain ⟨c, hcmem, hc⟩ := forall₂_mem_left hf mo hmo
    refine ⟨c, hc, ?_⟩
    obtain ⟨u, hu, hku⟩ := dedupKeyed_covers sqsKey cs [] c hcmem (by simp)
    refine ⟨u, ⟨hu, hku⟩, ?_⟩
    rintro u2 ⟨hu2, hku2⟩
    exact List.inj_on_of_nodup_map hnodup hu2 hu (by rw [hku2, hku])
  · intro u hu
    exact (dedupKeyed_first sqsKey cs [] u hu).2

/-- Concrete abstract SQS for the C1 witness: one sublattice, abstract
species `a`, `b` with site counts `[3, 1]`. -/
def sqsC1ex : AbstractSQS :=
  AbstractSQS.mk ["Xaa", "Xaa", "Xaa", "Xab"] [["a", "b"]] ["a"] [[3, 1]]

/-- Witness for `enumerate_sqs_dedup` at the concrete sublattice model
`[['Fe', 'Ni']]`. -/
theorem enumerate_sqs_dedup_witness :
    abstract_sqs_wf sqsC1ex ∧
    ([["Fe", "Ni"]] : List (List String)).length =
      sqsC1ex.sublattice_model.length ∧
    (∃ cs L,
      List.Forall₂ (fun mo c => get_concrete_sqs sqsC1ex mo = .ok c)
        (unique_subl_models sqsC1ex [["Fe", "Ni"]]) cs ∧
      enumerate_sqs sqsC1ex [["Fe", "Ni"]] = .ok L ∧
      L = dedupKeyed sqsKey cs [] ∧
      (L.map sqsKey).Nodup ∧
      (∀ mo ∈ unique_subl_models sqsC1ex [["Fe", "Ni"]],
        ∃ c, get_concrete_sqs sqsC1ex mo = .ok c ∧
          ∃! u, u ∈ L ∧ sqsKey u = sqsKey c) ∧
      ∀ u ∈ L, cs.find? (fun c => decide (sqsKey c = sqsKey u)) = some u) :=
  ⟨by decide, rfl,
    enumerate_sqs_dedup sqsC1ex [["Fe", "Ni"]] (by decide) rfl⟩

/-! ## Frame effects of the substitution functions (C9) -/

/-- The function `substitute_configuration` with the post-call state of the caller's
template structure made explicit: the function's first statement is
`struct = deepcopy(template_structure)`, and every later mutation
(`replace_species`, `scale_struct`) targets the copy `struct`, never the
argument. -/
def substitute_configuration_state (scale : PStructure → PStructure)
    (template_structure : PStructure)
    (template_config config : List (List String)) : PStructure × PStructure :=
  let struct0 := template_structure
  let struct1 := replace_species (gen_replacement_dict template_config config) struct0
  let struct2 := scale struct1
  (template_structure, struct2)

/-- The method `AbstractSQS.get_concrete_sqs` with the post-call state of the
caller's abstract SQS made explicit: the function reads `self` and
mutates only `self_copy = copy.deepcopy(self)` (by `replace_species` and
`scale_lattice`). -/
def get_concrete_sqs_state (s : AbstractSQS) (subl_model : List (List String)) :
    AbstractSQS × Except SqsError ConcreteSQS :=
  (s, get_concrete_sqs s subl_model)

/-- The function `dilute_substitution` with the post-call state of the caller's
endmember list made explicit: `structures = copy.deepcopy(endmembers)`
is taken first and `make_supercell` mutates only the copies. -/
def dilute_substitution_state (expand : List (List ℤ) → PStructure → PStructure)
    (endmembers : List PStructure) (sublattice_dict : String → List String)
    (supercell_matrix : Option (List (List ℤ))) :
    List PStructure × List PStructure :=
  (endmembers,
   dilute_substitution expand endmembers sublattice_dict supercell_matrix)

/-- C9: `substitute_configuration`, `AbstractSQS.get_concrete_sqs` and
`dilute_substitution` leave their input structures unchanged: each
operates on a deep copy, so after the call the caller's template
structure, abstract SQS and endmember structures equal their values
before the call. -/
theorem substitution_inputs_unchanged :
    (∀ (scale : PStructure → PStructure) (t : PStructure)
      (tc c : List (List String)),
      (substitute_configuration_state scale t tc c).1 = t) ∧
    (∀ (s : AbstractSQS) (m : List (List String)),
      (get_concrete_sqs_state s m).1 = s) ∧
    (∀ (expand : List (List ℤ) → PStructure → PStructure)
      (endmembers : List PStructure) (sublattice_dict : String → List String)
      (supercell_matrix : Option (List (List ℤ))),
      (dilute_substitution_state expand endmembers sublattice_dict
        supercell_matrix).1 = endmembers) :=
  ⟨fun _ _ _ _ => rfl, fun _ _ => rfl, fun _ _ _ _ => rfl⟩
